import Mathlib

/-!
Shallow embedding of the review-response reconciliation engine of the
`ai-code-review` repository (files `src/services/review-processor.js` and
`src/services/code-snippet-extractor.js`), together with theorems settling
the spec claims about it.

Strings are modelled as Lean `String`s; the JavaScript string operations the
source uses (`trim`, `split('\n')`, `indexOf`, `lastIndexOf`, `includes`,
`slice`, `toLowerCase`, the specific regular expressions, `JSON.parse`) are
given explicit executable models over `List Char` below.  JavaScript numbers
produced by the similarity / score divisions are modelled as exact rationals
(`ℚ`); the thresholds 0.5, 0.6, 0.7, 0.8 are the corresponding rationals.
-/

namespace AiCodeReview

/-! ## JavaScript string primitives -/

/-- The whitespace class used by JavaScript `trim` and `\s` (ASCII part:
space, tab, newline, carriage return, vertical tab, form feed). -/
def jsWs (c : Char) : Bool :=
  c = ' ' || c = '\t' || c = '\n' || c = '\r' || c = '\x0b' || c = '\x0c'

/-- `String.prototype.trim` on a character list. -/
def trimL (cs : List Char) : List Char :=
  ((cs.dropWhile jsWs).reverse.dropWhile jsWs).reverse

/-- `String.prototype.trim`. -/
def jsTrim (s : String) : String := ⟨trimL s.toList⟩

/-- `String.prototype.toLowerCase` (ASCII). -/
def jsLower (s : String) : String := ⟨s.toList.map Char.toLower⟩

/-- First index at which `needle` occurs in `cs`, if any
(`String.prototype.indexOf` without the `-1` encoding). -/
def idxOfL (cs needle : List Char) : Option Nat :=
  match cs with
  | [] => if needle.isPrefixOf ([] : List Char) then some 0 else none
  | _ :: tl =>
    if needle.isPrefixOf cs then some 0
    else (idxOfL tl needle).map (· + 1)

/-- Substring containment on character lists. -/
def inclL (cs sub : List Char) : Bool := (idxOfL cs sub).isSome

/-- `String.prototype.includes` (substring containment). -/
def jsIncludes (s sub : String) : Bool := inclL s.toList sub.toList

/-- `String.prototype.indexOf`: first occurrence index, `-1` if absent. -/
def jsIndexOf (s needle : String) : Int :=
  match idxOfL s.toList needle.toList with
  | some n => (n : Int)
  | none => -1

/-- All indices at which `needle` occurs in `cs`. -/
def occIdxs (cs needle : List Char) : List Nat :=
  (List.range (cs.length + 1)).filter (fun i => needle.isPrefixOf (cs.drop i))

/-- `String.prototype.lastIndexOf`: last occurrence index, `-1` if absent. -/
def jsLastIndexOf (s needle : String) : Int :=
  match (occIdxs s.toList needle.toList).getLast? with
  | some n => (n : Int)
  | none => -1

/-- `String.prototype.slice(a, b)` for in-range nonnegative indices. -/
def jsSlice (s : String) (a b : Nat) : String :=
  ⟨(s.toList.drop a).take (b - a)⟩

/-- `String.prototype.startsWith`. -/
def jsStartsWith (s pre : String) : Bool := pre.toList.isPrefixOf s.toList

/-- Split a character list at newline characters (`split('\n')` semantics:
the result always has one more piece than there are newlines). -/
def splitNl : List Char → List (List Char)
  | [] => [[]]
  | c :: cs =>
    if c = '\n' then [] :: splitNl cs
    else
      match splitNl cs with
      | [] => [[c]]
      | t :: ts => (c :: t) :: ts

/-- Join pieces with newline characters (inverse of `splitNl`). -/
def joinNl : List (List Char) → List Char
  | [] => []
  | [t] => t
  | t :: ts => t ++ '\n' :: joinNl ts

/-- `String.prototype.split('\n')` on strings. -/
def jsSplitNlStr (s : String) : List String :=
  (splitNl s.toList).map (fun l => ⟨l⟩)

theorem splitNl_ne_nil (cs : List Char) : splitNl cs ≠ [] := by
  cases cs with
  | nil => simp [splitNl]
  | cons c cs =>
    simp only [splitNl]
    split
    · simp
    · split <;> simp

theorem length_jsSplitNlStr_pos (s : String) : 0 < (jsSplitNlStr s).length := by
  have h := splitNl_ne_nil s.toList
  simp [jsSplitNlStr]
  exact List.length_pos.mpr h

/-! ## Regular-expression scanners

Each of the five snippet extractors in `extractCodeSnippetsFromComment` uses
a global regex.  Each regex is modelled as a matcher that, given the previous
character (for `\b` word boundaries) and the remaining input, returns the
matched text and the rest of the input.  `scanRx` then performs the standard
global-scan semantics of `String.prototype.match(/.../g)`: try the matcher at
each position, and on success continue after the match. -/

/-- JavaScript `\w` (ASCII word character). -/
def wordChar (c : Char) : Bool := c.isAlpha || c.isDigit || c = '_'

/-- Global regex scan.  `prev` is the character just before the current
position (for word boundaries); all matchers only succeed with a nonempty
match, so one unit of fuel per input character suffices. -/
def scanRx (tryM : Option Char → List Char → Option (List Char × List Char)) :
    Nat → Option Char → List Char → List String
  | 0, _, _ => []
  | _ + 1, _, [] => []
  | fuel + 1, prev, c :: cs =>
    match tryM prev (c :: cs) with
    | some (m, rest) => (⟨m⟩ : String) :: scanRx tryM fuel (m.getLast? <|> prev) rest
    | none => scanRx tryM fuel (some c) cs

/-- Run a global regex scan over a string. -/
def scanStr (tryM : Option Char → List Char → Option (List Char × List Char))
    (s : String) : List String :=
  scanRx tryM (s.toList.length + 1) none s.toList

/-- Matcher for ``/`([^`]+)`/`` : a backtick, one or more non-backticks, a
backtick.  The match includes the delimiters, as in JavaScript. -/
def tryBacktick (_ : Option Char) (cs : List Char) :
    Option (List Char × List Char) :=
  match cs with
  | '`' :: rest =>
    let body := rest.takeWhile (fun c => c ≠ '`')
    let rest' := rest.dropWhile (fun c => c ≠ '`')
    if body.isEmpty then none
    else
      match rest' with
      | '`' :: r2 => some ('`' :: body ++ ['`'], r2)
      | _ => none
  | _ => none

/-- Matcher for `/\b(\w+)\s*\(/` : at a word boundary, a maximal word run,
optional whitespace, then an opening parenthesis.  (Backtracking cannot help:
a word character given back by `\w+` matches neither `\s` nor `\(`.) -/
def tryFuncCall (prev : Option Char) (cs : List Char) :
    Option (List Char × List Char) :=
  let boundary := match prev with
    | none => true
    | some p => !wordChar p
  if !boundary then none
  else
    let w := cs.takeWhile wordChar
    let rest := cs.dropWhile wordChar
    if w.isEmpty then none
    else
      let sp := rest.takeWhile jsWs
      let rest' := rest.dropWhile jsWs
      match rest' with
      | '(' :: r2 => some (w ++ sp ++ ['('], r2)
      | _ => none

/-- Matcher for `/\$\w+|\w+\s*=/` : either a `$`-sigil token, or a word run,
optional whitespace and `=`.  (No word boundary; deterministic as above.) -/
def tryVarAssign (_ : Option Char) (cs : List Char) :
    Option (List Char × List Char) :=
  match cs with
  | '$' :: rest =>
    let w := rest.takeWhile wordChar
    if w.isEmpty then none
    else some ('$' :: w, rest.dropWhile wordChar)
  | _ =>
    let w := cs.takeWhile wordChar
    let rest := cs.dropWhile wordChar
    if w.isEmpty then none
    else
      let sp := rest.takeWhile jsWs
      let rest' := rest.dropWhile jsWs
      match rest' with
      | '=' :: r2 => some (w ++ sp ++ ['='], r2)
      | _ => none

/-- Matcher for `/\((\d+)\)|\b(\d{2,3})\b/` : a parenthesised digit run, or a
2–3 digit run flanked by word boundaries (greedy: 3 digits tried first). -/
def tryNumeric (prev : Option Char) (cs : List Char) :
    Option (List Char × List Char) :=
  match cs with
  | '(' :: rest =>
    let d := rest.takeWhile Char.isDigit
    let rest' := rest.dropWhile Char.isDigit
    if d.isEmpty then none
    else
      match rest' with
      | ')' :: r2 => some ('(' :: d ++ [')'], r2)
      | _ => none
  | _ =>
    let boundary := match prev with
      | none => true
      | some p => !wordChar p
    if !boundary then none
    else
      let rightBoundary : List Char → Bool := fun l =>
        match l with
        | [] => true
        | c :: _ => !wordChar c
      match cs with
      | c1 :: c2 :: c3 :: rest =>
        if c1.isDigit && c2.isDigit && c3.isDigit && rightBoundary rest then
          some ([c1, c2, c3], rest)
        else if c1.isDigit && c2.isDigit && rightBoundary (c3 :: rest) then
          some ([c1, c2], c3 :: rest)
        else none
      | [c1, c2] =>
        if c1.isDigit && c2.isDigit then some ([c1, c2], []) else none
      | _ => none

/-- The comparison-operator character class `[!=<>]`. -/
def cmpChar (c : Char) : Bool := c = '!' || c = '=' || c = '<' || c = '>'

/-- Matcher for `/[!=<>]+\s*\d+|\d+\s*[!=<>]/` (both alternatives are
deterministic: a given-back character can match none of the later parts). -/
def tryComparison (_ : Option Char) (cs : List Char) :
    Option (List Char × List Char) :=
  let ops := cs.takeWhile cmpChar
  if !ops.isEmpty then
    let rest := cs.dropWhile cmpChar
    let sp := rest.takeWhile jsWs
    let rest' := rest.dropWhile jsWs
    let d := rest'.takeWhile Char.isDigit
    if d.isEmpty then none
    else some (ops ++ sp ++ d, rest'.dropWhile Char.isDigit)
  else
    let d := cs.takeWhile Char.isDigit
    if d.isEmpty then none
    else
      let rest := cs.dropWhile Char.isDigit
      let sp := rest.takeWhile jsWs
      let rest' := rest.dropWhile jsWs
      match rest' with
      | op :: r2 => if cmpChar op then some (d ++ sp ++ [op], r2) else none
      | _ => none

/-! ## Snippet extraction (`extractCodeSnippetsFromComment`) -/

/-- `[...new Set(xs)]`: de-duplicate keeping the first occurrence of each
element, in order. -/
def dedupFirst : List String → List String
  | [] => []
  | x :: xs => x :: (dedupFirst xs).filter (fun y => y ≠ x)

/-- `extractCodeSnippetsFromComment(commentText)` from
`src/services/review-processor.js`: pool the matches of the five global
regexes (backtick spans with backticks removed and trimmed; call sites;
sigil/assignment tokens; parenthesised or bare 2–3 digit numbers; comparison
patterns), de-duplicate, and keep only snippets longer than one character. -/
def extractCodeSnippetsFromComment (commentText : String) : List String :=
  let snippets :=
    (scanStr tryBacktick commentText).map
      (fun m => jsTrim ⟨m.toList.filter (fun c => c ≠ '`')⟩) ++
    (scanStr tryFuncCall commentText).map jsTrim ++
    (scanStr tryVarAssign commentText).map jsTrim ++
    (scanStr tryNumeric commentText).map jsTrim ++
    (scanStr tryComparison commentText).map jsTrim
  (dedupFirst snippets).filter (fun s => s.toList.length > 1)

/-! ## Matching strategies -/

/-- Result of a matching strategy (`{lineNumber, matchedText, confidence}`). -/
structure MatchResult where
  lineNumber : Nat
  matchedText : String
  confidence : ℚ
deriving DecidableEq, Repr

/-- JavaScript `/^\d+$/.test(s)`. -/
def isPureNumber (s : String) : Bool :=
  !s.toList.isEmpty && s.toList.all Char.isDigit

/-- Does this line count as an exact hit for the snippet?  A purely numeric
snippet must appear next to a comparison operator or a parenthesis; any
other snippet is a plain substring test. -/
def exactHit (codeSnippet line : String) : Bool :=
  if isPureNumber codeSnippet then
    jsIncludes line ("== " ++ codeSnippet) ||
    jsIncludes line ("!= " ++ codeSnippet) ||
    jsIncludes line ("< " ++ codeSnippet) ||
    jsIncludes line ("> " ++ codeSnippet) ||
    jsIncludes line (codeSnippet ++ ")") ||
    jsIncludes line ("(" ++ codeSnippet)
  else jsIncludes line codeSnippet

/-- Loop of `findExactCodeMatch`, carrying the 0-based index. -/
def findExactAux (codeSnippet : String) : List String → Nat → Option MatchResult
  | [], _ => none
  | line :: rest, i =>
    if exactHit codeSnippet line then some ⟨i + 1, jsTrim line, 1⟩
    else findExactAux codeSnippet rest (i + 1)

/-- `findExactCodeMatch(codeSnippet, fileLines)`: first line containing the
snippet (with an adjacency context requirement for purely numeric snippets). -/
def findExactCodeMatch (codeSnippet : String) (fileLines : List String) :
    Option MatchResult :=
  findExactAux codeSnippet fileLines 0

/-- `calculateSimilarity(string1, string2)`: 1 on equality, containment
length-ratio, else Jaccard similarity of the character sets.  JavaScript
float division is modelled by exact rational division. -/
def calculateSimilarity (string1 string2 : String) : ℚ :=
  let s1 := jsTrim (jsLower string1)
  let s2 := jsTrim (jsLower string2)
  if s1 = s2 then 1
  else if s1.toList.length = 0 || s2.toList.length = 0 then 0
  else if jsIncludes s2 s1 || jsIncludes s1 s2 then
    (min s1.toList.length s2.toList.length : ℚ) /
      (max s1.toList.length s2.toList.length : ℚ)
  else
    let c1 := s1.toList.eraseDups
    let c2 := s2.toList.eraseDups
    let inter := c1.filter (fun c => c2.contains c)
    let uni := (c1 ++ c2).eraseDups
    (inter.length : ℚ) / (uni.length : ℚ)

/-- Loop of `findFuzzyCodeMatch`: track the best similarity above 0.7 over
non-blank (trimmed) lines. -/
def findFuzzyAux (codeSnippet : String) :
    List String → Nat → Option MatchResult → ℚ → Option MatchResult
  | [], _, best, _ => best
  | fileLine :: rest, i, best, bestScore =>
    let line := jsTrim fileLine
    if line = "" then findFuzzyAux codeSnippet rest (i + 1) best bestScore
    else
      let similarity := calculateSimilarity codeSnippet line
      if similarity > bestScore ∧ similarity > 7/10 then
        findFuzzyAux codeSnippet rest (i + 1)
          (some ⟨i + 1, line, similarity⟩) similarity
      else findFuzzyAux codeSnippet rest (i + 1) best bestScore

/-- `findFuzzyCodeMatch(codeSnippet, fileLines)`. -/
def findFuzzyCodeMatch (codeSnippet : String) (fileLines : List String) :
    Option MatchResult :=
  findFuzzyAux codeSnippet fileLines 0 none 0

/-- The stop-word list of `extractKeywords`. -/
def stopWords : List String :=
  ["the", "is", "at", "which", "on", "and", "or", "but", "will", "can",
   "should", "could", "would", "might", "may", "this", "that", "with",
   "for", "to", "of", "in", "by", "from", "a", "an"]

/-- `"...".split(/\s+/)` (with the JavaScript leading/trailing empty-token
behaviour); fuel-driven, one unit per consumed separator run. -/
def splitWsPlus : Nat → List Char → List (List Char)
  | 0, _ => []
  | fuel + 1, cs =>
    let tok := cs.takeWhile (fun c => !jsWs c)
    let rest := cs.dropWhile (fun c => !jsWs c)
    match rest with
    | [] => [tok]
    | _ => tok :: splitWsPlus fuel (rest.dropWhile jsWs)

/-- `extractKeywords(text)`: lowercase, replace every character outside
`[a-z0-9\s]` by a space, split on whitespace runs, keep non-stop-words longer
than three characters, cap at ten. -/
def extractKeywords (text : String) : List String :=
  let low := (jsLower text).toList
  let replaced := low.map (fun c => if c.isLower || c.isDigit || jsWs c then c else ' ')
  (((splitWsPlus (replaced.length + 1) replaced).map
      (fun l => (⟨l⟩ : String))).filter
    (fun w => w.toList.length > 3 && !stopWords.contains w)).take 10

/-- Loop of `findKeywordMatch`: per non-blank line, the fraction of keywords
contained (case-insensitive substring test); keep the best line with
normalised score above 0.5, confidence capped at 0.8. -/
def findKeywordAux (keywords : List String) :
    List String → Nat → Option MatchResult → ℚ → Option MatchResult
  | [], _, best, _ => best
  | fileLine :: rest, i, best, bestScore =>
    let line := jsLower fileLine
    if jsTrim line = "" then findKeywordAux keywords rest (i + 1) best bestScore
    else
      let score : ℚ :=
        ((keywords.filter (fun k => jsIncludes line (jsLower k))).length : ℚ)
      let normalizedScore := score / (keywords.length : ℚ)
      if normalizedScore > bestScore ∧ normalizedScore > 1/2 then
        findKeywordAux keywords rest (i + 1)
          (some ⟨i + 1, jsTrim fileLine, min (4/5) normalizedScore⟩) normalizedScore
      else findKeywordAux keywords rest (i + 1) best bestScore

/-- `findKeywordMatch(commentText, fileLines)`. -/
def findKeywordMatch (commentText : String) (fileLines : List String) :
    Option MatchResult :=
  let keywords := extractKeywords commentText
  if keywords.isEmpty then none
  else findKeywordAux keywords fileLines 0 none 0

/-! ## The line matcher (`findActualLineFromContent`) -/

/-- A review comment, with the provenance metadata the matcher attaches
(`_originalLine`, `_correctionMethod`, `_matchedCode`, `_confidence`,
`_lineWarning`). -/
structure RComment where
  file : String
  line : Int
  comment : String
  originalLine : Option Int := none
  correctionMethod : Option String := none
  matchedCode : Option String := none
  confidence : Option ℚ := none
  lineWarning : Bool := false
deriving DecidableEq, Repr

/-- The exact-match step: return on the first snippet with an exact match. -/
def exactLoop : List String → List String → Option (String × MatchResult)
  | [], _ => none
  | s :: ss, fileLines =>
    match findExactCodeMatch s fileLines with
    | some m => some (s, m)
    | none => exactLoop ss fileLines

/-- The fuzzy-match step: return on the first snippet whose best fuzzy match
has confidence above 0.8. -/
def fuzzyLoop : List String → List String → Option (String × MatchResult)
  | [], _ => none
  | s :: ss, fileLines =>
    match findFuzzyCodeMatch s fileLines with
    | some m =>
      if m.confidence > 4/5 then some (s, m) else fuzzyLoop ss fileLines
    | none => fuzzyLoop ss fileLines

/-- The keyword step at the end of `findActualLineFromContent`: accept a
keyword match only above confidence 0.6. -/
def keywordStep (comment : RComment) (fileLines : List String) :
    Option RComment :=
  match findKeywordMatch comment.comment fileLines with
  | some m =>
    if m.confidence > 3/5 then
      some { comment with
        line := (m.lineNumber : Int),
        originalLine := some comment.line,
        correctionMethod := some "keyword_match",
        confidence := some m.confidence }
    else none
  | none => none

/-- `findActualLineFromContent(comment, fileContent)`: exact match, then
fuzzy match, then original-line validation, then keyword match, else `null`. -/
def findActualLineFromContent (comment : RComment) (fileContent : String) :
    Option RComment :=
  let fileLines := jsSplitNlStr fileContent
  let maxLineNumber : Int := (fileLines.length : Int)
  let codeSnippets := extractCodeSnippetsFromComment comment.comment
  match exactLoop codeSnippets fileLines with
  | some (snippet, m) =>
    some { comment with
      line := (m.lineNumber : Int),
      originalLine := some comment.line,
      correctionMethod := some "exact_match",
      matchedCode := some snippet,
      confidence := some 1 }
  | none =>
    match fuzzyLoop codeSnippets fileLines with
    | some (snippet, m) =>
      some { comment with
        line := (m.lineNumber : Int),
        originalLine := some comment.line,
        correctionMethod := some "fuzzy_match",
        matchedCode := some snippet,
        confidence := some m.confidence }
    | none =>
      if comment.line ≠ 0 ∧ 1 ≤ comment.line ∧ comment.line ≤ maxLineNumber then
        let targetLine := fileLines.getD (comment.line - 1).toNat ""
        if targetLine ≠ "" ∧ jsTrim targetLine ≠ "" then
          some { comment with
            correctionMethod := some "original_line_kept",
            confidence := some (1/2),
            lineWarning := true }
        else keywordStep comment fileLines
      else keywordStep comment fileLines

/-! ## `parseFileContents` (`src/services/code-snippet-extractor.js`)

The source splits the context blob with `fileContext.split(/^--- (.+?) ---$/gm)`.
With the `m` flag the pattern matches exactly the complete lines of the form
`--- <path> ---` (the `<path>` part is uniquely determined: it is the middle
of the line after the fixed 4-character prefix and suffix, so laziness of the
capture is irrelevant), and the matched separator contains no newline, so the
surrounding newlines stay with the neighbouring pieces.  We therefore model
the split line-wise: split the blob on `'\n'`, classify header lines, and
re-join the runs between headers, restoring the boundary newlines. -/

/-- Is this (newline-free) line a header line `--- <path> ---`?  Matching
`/^--- (.+?) ---$/` requires the fixed prefix `--- `, the fixed suffix
` ---`, and a nonempty middle. -/
def isHeaderLine (l : List Char) : Bool :=
  9 ≤ l.length && "--- ".toList.isPrefixOf l &&
    " ---".toList.reverse.isPrefixOf l.reverse

/-- The captured `<path>` of a header line. -/
def headerName (l : List Char) : String :=
  ⟨(l.drop 4).take (l.length - 8)⟩

/-- Split a list of lines at header lines: returns the run of lines before
the first header and, for each header, its name and the run of lines that
follow it (up to the next header). -/
def splitAtHeaders : List (List Char) →
    List (List Char) × List (String × List (List Char))
  | [] => ([], [])
  | l :: ls =>
    let (run, pairs) := splitAtHeaders ls
    if isHeaderLine l then ([], (headerName l, run) :: pairs)
    else (l :: run, pairs)

/-- Reconstruct each section body as the corresponding piece of the
JavaScript `split`: the piece after a header starts with the newline that
followed the header line, and ends with the newline that preceded the next
header line (no trailing newline for the last section). -/
def sectionBodies : List (String × List (List Char)) → List (String × List Char)
  | [] => []
  | [(n, r)] => [(n, joinNl ([] :: r))]
  | (n, r) :: rest => (n, joinNl ([] :: (r ++ [[]]))) :: sectionBodies rest

/-- `Map.prototype.set`: replace the value in place if the key is present,
otherwise append. -/
def mapSet (m : List (String × String)) (k v : String) : List (String × String) :=
  if m.any (fun p => p.1 = k) then
    m.map (fun p => if p.1 = k then (k, v) else p)
  else m ++ [(k, v)]

/-- `Map.prototype.get` (as an `Option`). -/
def mapGet (m : List (String × String)) (k : String) : Option String :=
  (m.find? (fun p => p.1 = k)).map Prod.snd

/-- `content.replace(/^\n+/, '')`. -/
def stripNlPrefix (cs : List Char) : List Char :=
  cs.dropWhile (fun c => c = '\n')

/-- `content.replace(/\n+$/, '')`. -/
def stripNlSuffix (cs : List Char) : List Char :=
  (cs.reverse.dropWhile (fun c => c = '\n')).reverse

/-- The per-section step of the fold of `parseFileContents`: with truthy
name and body, strip leading and trailing newline runs from the body and
store it if still nonempty. -/
def pfcStep (m : List (String × String)) (nb : String × List Char) :
    List (String × String) :=
  if nb.1 ≠ "" ∧ nb.2 ≠ [] then
    if stripNlSuffix (stripNlPrefix nb.2) ≠ [] then
      mapSet m nb.1 ⟨stripNlSuffix (stripNlPrefix nb.2)⟩
    else m
  else m

/-- `parseFileContents(fileContext)` from
`src/services/code-snippet-extractor.js`: split on header lines, and fold
the sections with `pfcStep`. -/
def parseFileContents (fileContext : String) : List (String × String) :=
  if fileContext = "" then []
  else
    (sectionBodies (splitAtHeaders (splitNl fileContext.toList)).2).foldl
      pfcStep []

/-- Remove leading empty lines from a list of lines. -/
def dropLeadEmpty (l : List (List Char)) : List (List Char) :=
  l.dropWhile List.isEmpty

/-- Remove trailing empty lines from a list of lines. -/
def dropTrailEmpty (l : List (List Char)) : List (List Char) :=
  (l.reverse.dropWhile List.isEmpty).reverse

/-- The per-section step stated from the spec's words: split the body into
lines, remove leading and trailing blank lines, skip the section when
nothing remains. -/
def pfcStepSpec (m : List (String × String)) (nb : String × List Char) :
    List (String × String) :=
  if nb.1 ≠ "" then
    if joinNl (dropTrailEmpty (dropLeadEmpty (splitNl nb.2))) ≠ [] then
      mapSet m nb.1 ⟨joinNl (dropTrailEmpty (dropLeadEmpty (splitNl nb.2)))⟩
    else m
  else m

/-- Stated from the spec's words, for comparison with `parseFileContents`:
each header line of the form `--- <path> ---` is mapped to its section's
body with leading and trailing blank lines removed, and a section whose
body is empty after this trimming contributes no mapping entry. -/
def parseFileContentsSpec (fileContext : String) : List (String × String) :=
  if fileContext = "" then []
  else
    (sectionBodies (splitAtHeaders (splitNl fileContext.toList)).2).foldl
      pfcStepSpec []

/-! ## The reconciler (`validateAndFixLineNumbers`) -/

/-- A parsed review: summary plus an optional comments array (absent when
the parsed JSON had no usable `comments` field). -/
structure Review where
  summary : String
  comments : Option (List RComment)
deriving DecidableEq, Repr

/-- The body of the loop of `validateAndFixLineNumbers`: drop the comment
when its file is not in the parsed context (or its content is falsy),
otherwise hand it to `findActualLineFromContent` (dropped on `null`). -/
def validateOne (fileContents : List (String × String)) (comment : RComment) :
    Option RComment :=
  match mapGet fileContents comment.file with
  | none => none
  | some fileContent =>
    if fileContent = "" then none
    else findActualLineFromContent comment fileContent

/-- `validateAndFixLineNumbers(parsedReview, fileContext)` from
`src/services/review-processor.js`: with a falsy context or no comments the
review is returned unchanged; otherwise the comments are filtered and
corrected one by one. -/
def validateAndFixLineNumbers (parsedReview : Review) (fileContext : String) :
    Review :=
  if fileContext = "" ∨ parsedReview.comments = none then parsedReview
  else
    match parsedReview.comments with
    | none => parsedReview
    | some cs =>
      { parsedReview with
        comments := some (cs.filterMap (validateOne (parseFileContents fileContext))) }

/-! ## A model of `JSON.parse`

`parseReviewResponse` relies on the ECMAScript `JSON.parse`; we model it by
an executable recursive-descent parser for the JSON grammar, with exact
rationals for numbers (ECMAScript converts to binary floats; no claim below
depends on float rounding).  Lone `\uXXXX` surrogates, which Lean's `Char`
cannot represent, are mapped to U+FFFD. -/

/-- JSON values. -/
inductive Json where
  | jnull : Json
  | jbool : Bool → Json
  | jnum : ℚ → Json
  | jstr : String → Json
  | jarr : List Json → Json
  | jobj : List (String × Json) → Json
deriving Repr

/-- JSON insignificant whitespace. -/
def jsonWsChar (c : Char) : Bool := c = ' ' || c = '\t' || c = '\n' || c = '\r'

/-- Skip JSON whitespace. -/
def skipWs (cs : List Char) : List Char := cs.dropWhile jsonWsChar

/-- Hexadecimal digit value. -/
def hexVal (c : Char) : Option Nat :=
  if c.isDigit then some (c.toNat - '0'.toNat)
  else if 'a' ≤ c ∧ c ≤ 'f' then some (c.toNat - 'a'.toNat + 10)
  else if 'A' ≤ c ∧ c ≤ 'F' then some (c.toNat - 'A'.toNat + 10)
  else none

/-- Decimal digit run to a natural number. -/
def digitsToNat (ds : List Char) : Nat :=
  ds.foldl (fun n c => n * 10 + (c.toNat - '0'.toNat)) 0

/-- Parse the remainder of a JSON string literal (after the opening quote);
returns the decoded characters and the input after the closing quote. -/
def parseJstr : Nat → List Char → Option (List Char × List Char)
  | 0, _ => none
  | fuel + 1, cs =>
    match cs with
    | [] => none
    | '"' :: rest => some ([], rest)
    | '\\' :: esc =>
      match esc with
      | '"' :: r => (parseJstr fuel r).map (fun p => ('"' :: p.1, p.2))
      | '\\' :: r => (parseJstr fuel r).map (fun p => ('\\' :: p.1, p.2))
      | '/' :: r => (parseJstr fuel r).map (fun p => ('/' :: p.1, p.2))
      | 'b' :: r => (parseJstr fuel r).map (fun p => ('\x08' :: p.1, p.2))
      | 'f' :: r => (parseJstr fuel r).map (fun p => ('\x0c' :: p.1, p.2))
      | 'n' :: r => (parseJstr fuel r).map (fun p => ('\n' :: p.1, p.2))
      | 'r' :: r => (parseJstr fuel r).map (fun p => ('\r' :: p.1, p.2))
      | 't' :: r => (parseJstr fuel r).map (fun p => ('\t' :: p.1, p.2))
      | 'u' :: h1 :: h2 :: h3 :: h4 :: r =>
        match hexVal h1, hexVal h2, hexVal h3, hexVal h4 with
        | some a, some b, some c, some d =>
          let n := ((a * 16 + b) * 16 + c) * 16 + d
          if 0xD800 ≤ n ∧ n ≤ 0xDBFF then
            match r with
            | '\\' :: 'u' :: g1 :: g2 :: g3 :: g4 :: r2 =>
              match hexVal g1, hexVal g2, hexVal g3, hexVal g4 with
              | some a', some b', some c', some d' =>
                let m := ((a' * 16 + b') * 16 + c') * 16 + d'
                if 0xDC00 ≤ m ∧ m ≤ 0xDFFF then
                  let cp := 0x10000 + (n - 0xD800) * 0x400 + (m - 0xDC00)
                  (parseJstr fuel r2).map (fun p => (Char.ofNat cp :: p.1, p.2))
                else (parseJstr fuel r).map (fun p => ('�' :: p.1, p.2))
              | _, _, _, _ =>
                (parseJstr fuel r).map (fun p => ('�' :: p.1, p.2))
            | _ => (parseJstr fuel r).map (fun p => ('�' :: p.1, p.2))
          else if 0xDC00 ≤ n ∧ n ≤ 0xDFFF then
            (parseJstr fuel r).map (fun p => ('�' :: p.1, p.2))
          else (parseJstr fuel r).map (fun p => (Char.ofNat n :: p.1, p.2))
        | _, _, _, _ => none
      | _ => none
    | c :: rest =>
      if c.toNat < 0x20 then none
      else (parseJstr fuel rest).map (fun p => (c :: p.1, p.2))

/-- Parse a JSON number literal. -/
def parseJnum (cs : List Char) : Option (ℚ × List Char) :=
  let sp :=
    match cs with
    | '-' :: r => (true, r)
    | _ => (false, cs)
  let intPart : Option (Nat × List Char) :=
    match sp.2 with
    | '0' :: r =>
      match r with
      | c :: _ => if c.isDigit then none else some (0, r)
      | [] => some (0, [])
    | c :: _ =>
      if c.isDigit then
        some (digitsToNat (sp.2.takeWhile Char.isDigit), sp.2.dropWhile Char.isDigit)
      else none
    | [] => none
  match intPart with
  | none => none
  | some (ip, cs2) =>
    let fracPart : Option (ℚ × List Char) :=
      match cs2 with
      | '.' :: r =>
        let d := r.takeWhile Char.isDigit
        if d.isEmpty then none
        else some ((digitsToNat d : ℚ) / (10 : ℚ) ^ d.length, r.dropWhile Char.isDigit)
      | _ => some (0, cs2)
    match fracPart with
    | none => none
    | some (fp, cs3) =>
      let expPart : Option (Int × List Char) :=
        match cs3 with
        | e :: r =>
          if e = 'e' ∨ e = 'E' then
            let sr :=
              match r with
              | '+' :: rr => ((1 : Int), rr)
              | '-' :: rr => ((-1 : Int), rr)
              | _ => ((1 : Int), r)
            let d := sr.2.takeWhile Char.isDigit
            if d.isEmpty then none
            else some (sr.1 * (digitsToNat d : Int), sr.2.dropWhile Char.isDigit)
          else some (0, cs3)
        | [] => some (0, [])
      match expPart with
      | none => none
      | some (ex, cs4) =>
        let mag : ℚ := ((ip : ℚ) + fp) *
          (if 0 ≤ ex then (10 : ℚ) ^ ex.toNat else 1 / (10 : ℚ) ^ (-ex).toNat)
        some (if sp.1 then -mag else mag, cs4)

mutual

/-- Parse a JSON value (fuel-driven recursive descent). -/
def parseJval : Nat → List Char → Option (Json × List Char)
  | 0, _ => none
  | fuel + 1, cs0 =>
    let cs := skipWs cs0
    match cs with
    | 'n' :: 'u' :: 'l' :: 'l' :: r => some (.jnull, r)
    | 't' :: 'r' :: 'u' :: 'e' :: r => some (.jbool true, r)
    | 'f' :: 'a' :: 'l' :: 's' :: 'e' :: r => some (.jbool false, r)
    | '"' :: r => (parseJstr (fuel + 1) r).map (fun p => (.jstr ⟨p.1⟩, p.2))
    | '[' :: r =>
      match skipWs r with
      | ']' :: r2 => some (.jarr [], r2)
      | _ => (parseJarrItems fuel r).map (fun p => (.jarr p.1, p.2))
    | '{' :: r =>
      match skipWs r with
      | '}' :: r2 => some (.jobj [], r2)
      | _ => (parseJobjItems fuel r).map (fun p => (.jobj p.1, p.2))
    | _ => (parseJnum cs).map (fun p => (.jnum p.1, p.2))

/-- Parse the elements of a (nonempty) JSON array after `[`. -/
def parseJarrItems : Nat → List Char → Option (List Json × List Char)
  | 0, _ => none
  | fuel + 1, cs =>
    match parseJval fuel cs with
    | none => none
    | some (v, r) =>
      match skipWs r with
      | ',' :: r2 => (parseJarrItems fuel r2).map (fun p => (v :: p.1, p.2))
      | ']' :: r2 => some ([v], r2)
      | _ => none

/-- Parse the members of a (nonempty) JSON object after `{`. -/
def parseJobjItems : Nat → List Char → Option (List (String × Json) × List Char)
  | 0, _ => none
  | fuel + 1, cs =>
    match skipWs cs with
    | '"' :: r =>
      match parseJstr (fuel + 1) r with
      | none => none
      | some (k, r2) =>
        match skipWs r2 with
        | ':' :: r4 =>
          match parseJval fuel r4 with
          | none => none
          | some (v, r5) =>
            match skipWs r5 with
            | ',' :: r7 =>
              (parseJobjItems fuel r7).map (fun p => ((⟨k⟩, v) :: p.1, p.2))
            | '}' :: r7 => some ([(⟨k⟩, v)], r7)
            | _ => none
        | _ => none
    | _ => none

end

/-- `JSON.parse`: parse a complete JSON text (with enough fuel for any
input of this length: each fuel decrement consumes input characters). -/
def jsonParse (s : String) : Option Json :=
  match parseJval (4 * s.toList.length + 8) s.toList with
  | some (v, rest) => if (skipWs rest).isEmpty then some v else none
  | none => none

/-- Property access `obj[k]` on a parsed JSON object (for duplicate keys,
`JSON.parse` keeps the last value). -/
def getField (j : Json) (k : String) : Option Json :=
  match j with
  | .jobj fs => ((fs.reverse).find? (fun p => p.1 = k)).map Prod.snd
  | _ => none

/-- JavaScript truthiness of a parsed JSON value. -/
def truthy : Json → Bool
  | .jnull => false
  | .jbool b => b
  | .jnum q => q ≠ 0
  | .jstr s => s ≠ ""
  | .jarr _ => true
  | .jobj _ => true

/-! ## JavaScript string coercion of parsed JSON values

When the Claude envelope's `result` field is a truthy non-string, the
source's subsequent string operations run against that value: numbers,
booleans and plain objects have no `indexOf`, so a `TypeError` is thrown
and caught; an array, however, proceeds — `indexOf`/`lastIndexOf` search
for an element strictly equal to the marker string, `slice` is the array
slice, and the final `JSON.parse` coerces the array with `ToString`
(elements joined by commas; `null` joins as the empty string; nested
arrays join recursively; plain objects print `[object Object]`).  Number
elements are rendered by their exact decimal expansion (every number
produced by the JSON grammar has a power-of-ten denominator); this matches
the ECMAScript shortest-round-trip output except for literals beyond
double precision or outside the fixed-notation range. -/

/-- Decimal rendering of a parsed JSON number. -/
def jsToStringNum (q : ℚ) : String :=
  if q.den = 1 then toString q.num
  else
    match (List.range 51).find? (fun k => q.den ∣ 10 ^ k) with
    | some k =>
      let scaled : Int := q.num * ((10 : Int) ^ k) / (q.den : Int)
      let a := scaled.natAbs
      let fpStr := toString (a % 10 ^ k)
      let pad : String := ⟨List.replicate (k - fpStr.toList.length) '0'⟩
      (if q.num < 0 then "-" else "") ++ toString (a / 10 ^ k) ++ "." ++
        pad ++ fpStr
    | none => toString q.num ++ "/" ++ toString q.den

/-- `ToString` of a parsed JSON value as an array element (`Array.prototype.join`
renders `null` as the empty string, so the `null` case coincides). -/
def jsToString : Json → String
  | .jnull => ""
  | .jbool b => if b then "true" else "false"
  | .jnum q => jsToStringNum q
  | .jstr s => s
  | .jobj _ => "[object Object]"
  | .jarr xs => String.intercalate "," (xs.attach.map (fun e => jsToString e.1))
termination_by j => sizeOf j
decreasing_by
  simp_wf
  have := List.sizeOf_lt_of_mem e.2
  omega

/-- `String(array)` = `array.join(",")`. -/
def jsArrJoin (xs : List Json) : String :=
  String.intercalate "," (xs.map jsToString)

/-- Strict equality of an array element against a marker string (`===` can
only hold for a string element). -/
def jsonElemIsStr (e : Json) (s : String) : Bool :=
  match e with
  | .jstr t => t = s
  | _ => false

/-- `Array.prototype.lastIndexOf` restricted to a predicate. -/
def lastIdxOf {α : Type} (p : α → Bool) (xs : List α) : Option Nat :=
  match xs.reverse.findIdx? p with
  | some i => some (xs.length - 1 - i)
  | none => none

/-! ## The response extractor (`parseReviewResponse`) -/

/-- Outcome of the unwrap step: a textual payload still subject to the
fence/brace isolation, or (for an array `result`) a payload whose searches
already ran with array semantics and whose string coercion is parsed
directly. -/
inductive UnwrapOutcome where
  | toIsolate : String → UnwrapOutcome
  | toParse : String → UnwrapOutcome

/-- The slicing step of `parseReviewResponse`: prefer the span between a
`` ```json `` marker and the last `` ``` `` marker; otherwise the span from
the first `\x7b` to the last `\x7d`; otherwise the text unchanged. -/
def isolateJson (t : String) : String :=
  let jsonStart := jsIndexOf t "```json"
  let jsonEnd := jsLastIndexOf t "```"
  if jsonStart ≠ -1 ∧ jsonEnd ≠ -1 ∧ jsonEnd > jsonStart then
    jsTrim (jsSlice t (jsonStart.toNat + 7) jsonEnd.toNat)
  else
    let firstBrace := jsIndexOf t "\x7b"
    let lastBrace := jsLastIndexOf t "\x7d"
    if firstBrace ≠ -1 ∧ lastBrace ≠ -1 ∧ lastBrace > firstBrace then
      jsSlice t firstBrace.toNat (lastBrace.toNat + 1)
    else t

/-- `parseReviewResponse(review, llmChoice)` from
`src/services/review-processor.js`: optional one-level unwrap of the Claude
CLI envelope, isolation of the JSON slice, then `JSON.parse`; any failure in
the `try` block becomes the "Invalid JSON response" error.  (A truthy
non-string `result` field is modelled as a failure: the subsequent string
operations on it throw in JavaScript for primitives; non-string `result`
values do not occur in the envelope format this branch targets.) -/
def reviewErrMsg (llmChoice : String) : String :=
  "Invalid JSON response from " ++ llmChoice ++ " CLI."

/-- The brace branch for an array `result` payload: `indexOf('\x7b')` and
`lastIndexOf('\x7d')` search for string elements, `slice` is the array
slice, and the final `JSON.parse` coerces the (possibly sliced) array to
its comma-joined string. -/
def unwrapArrayBrace (xs : List Json) : Except String UnwrapOutcome :=
  match xs.findIdx? (fun e => jsonElemIsStr e "\x7b"),
        lastIdxOf (fun e => jsonElemIsStr e "\x7d") xs with
  | some f, some l =>
    if l > f then .ok (.toParse (jsArrJoin ((xs.drop f).take (l + 1 - f))))
    else .ok (.toParse (jsArrJoin xs))
  | _, _ => .ok (.toParse (jsArrJoin xs))

/-- An array `result` payload: when the fence condition holds over the
array's elements, the source calls `.trim()` on an array slice — a
`TypeError` caught as the error; otherwise the brace branch applies. -/
def unwrapArray (xs : List Json) (llmChoice : String) :
    Except String UnwrapOutcome :=
  match xs.findIdx? (fun e => jsonElemIsStr e "```json"),
        lastIdxOf (fun e => jsonElemIsStr e "```") xs with
  | some a, some b =>
    if b > a then .error (reviewErrMsg llmChoice)
    else unwrapArrayBrace xs
  | _, _ => unwrapArrayBrace xs

/-- The unwrap step of `parseReviewResponse` on the trimmed text.  A truthy
string `result` replaces the working text; a truthy array `result` follows
the array-semantics path above; a truthy number, boolean or object `result`
has no `indexOf`, so the immediately following call throws a `TypeError`
caught as the error; a falsy or absent `result` keeps the original text. -/
def unwrapClaude (cleaned0 llmChoice : String) : Except String UnwrapOutcome :=
  if jsLower llmChoice = "claude" ∧ jsStartsWith cleaned0 "\x7b" ∧
      jsIncludes cleaned0 "\"result\"" then
    match jsonParse cleaned0 with
    | none => .error (reviewErrMsg llmChoice)
    | some w =>
      match getField w "result" with
      | some r =>
        if truthy r then
          match r with
          | .jstr s => .ok (.toIsolate s)
          | .jarr xs => unwrapArray xs llmChoice
          | _ => .error (reviewErrMsg llmChoice)
        else .ok (.toIsolate cleaned0)
      | none => .ok (.toIsolate cleaned0)
  else .ok (.toIsolate cleaned0)

def parseReviewResponse (review llmChoice : String) : Except String Json :=
  match unwrapClaude (jsTrim review) llmChoice with
  | .error e => .error e
  | .ok (.toIsolate t) =>
    match jsonParse (isolateJson t) with
    | some v => .ok v
    | none => .error (reviewErrMsg llmChoice)
  | .ok (.toParse t) =>
    match jsonParse t with
    | some v => .ok v
    | none => .error (reviewErrMsg llmChoice)

/-! ## Claims: the response extractor (C6, C7) and the trivial-input
behaviour of the reconciler (C10) -/

/-- Claim C10 (confirmed): when the file-context argument is empty (falsy)
or the parsed review has no comments field, `validateAndFixLineNumbers`
returns its input review unchanged. -/
theorem C10_trivial_inputs_unchanged (review : Review) (fileContext : String)
    (h : fileContext = "" ∨ review.comments = none) :
    validateAndFixLineNumbers review fileContext = review := by
  unfold validateAndFixLineNumbers
  rw [if_pos h]

/-- Witness for C10 at a concrete input: an empty context returns the
review unchanged. -/
theorem C10_trivial_inputs_unchanged_witness :
    validateAndFixLineNumbers
      { summary := "ok", comments := some [{ file := "a", line := 3, comment := "c" }] }
      "" =
    { summary := "ok", comments := some [{ file := "a", line := 3, comment := "c" }] } :=
  C10_trivial_inputs_unchanged _ _ (Or.inl rfl)

/-- Claim C7 (confirmed): extracting the Claude envelope
`\x7b"result": "```json\n\x7b\"summary\":\"s\",\"comments\":[]\x7d\n```"\x7d`
with provider hint `claude` returns the review object with summary `"s"`
and an empty comments array. -/
theorem C7_unwrap_round_trip :
    parseReviewResponse
      "\x7b\"result\": \"```json\\n\x7b\\\"summary\\\":\\\"s\\\",\\\"comments\\\":[]\x7d\\n```\"\x7d"
      "claude" =
    .ok (.jobj [("summary", .jstr "s"), ("comments", .jarr [])]) := by
  rfl

/-- Counterexample to claim C6 as stated: the raw text `\x7b"foo": []\x7d`
has an isolated slice that parses as JSON but yields neither a `summary`
field nor a `comments` sequence, yet `parseReviewResponse` does not raise
the malformed-response error: it returns the structure to the caller. -/
theorem C6_no_structural_validation_counterexample :
    parseReviewResponse "\x7b\"foo\": []\x7d" "gemini" =
      .ok (.jobj [("foo", .jarr [])]) ∧
    getField (.jobj [("foo", .jarr [])]) "summary" = none ∧
    getField (.jobj [("foo", .jarr [])]) "comments" = none :=
  ⟨rfl, rfl, rfl⟩

theorem parseRR_error_unwrap {review llmChoice e}
    (hU : unwrapClaude (jsTrim review) llmChoice = .error e) :
    parseReviewResponse review llmChoice = .error e := by
  unfold parseReviewResponse
  rw [hU]

theorem parseRR_toIsolate_ok {review llmChoice t v}
    (hU : unwrapClaude (jsTrim review) llmChoice = .ok (.toIsolate t))
    (hP : jsonParse (isolateJson t) = some v) :
    parseReviewResponse review llmChoice = .ok v := by
  unfold parseReviewResponse
  rw [hU]
  simp only [hP]

theorem parseRR_toIsolate_err {review llmChoice t}
    (hU : unwrapClaude (jsTrim review) llmChoice = .ok (.toIsolate t))
    (hP : jsonParse (isolateJson t) = none) :
    parseReviewResponse review llmChoice = .error (reviewErrMsg llmChoice) := by
  unfold parseReviewResponse
  rw [hU]
  simp only [hP]

theorem parseRR_toParse_ok {review llmChoice t v}
    (hU : unwrapClaude (jsTrim review) llmChoice = .ok (.toParse t))
    (hP : jsonParse t = some v) :
    parseReviewResponse review llmChoice = .ok v := by
  unfold parseReviewResponse
  rw [hU]
  simp only [hP]

theorem parseRR_toParse_err {review llmChoice t}
    (hU : unwrapClaude (jsTrim review) llmChoice = .ok (.toParse t))
    (hP : jsonParse t = none) :
    parseReviewResponse review llmChoice = .error (reviewErrMsg llmChoice) := by
  unfold parseReviewResponse
  rw [hU]
  simp only [hP]

/-- Claim C6 as amended (corrected): the extractor fails exactly when JSON
parsing fails and performs no structural validation.  For every raw text
and every provider hint: `parseReviewResponse` returns `Except.ok v`
exactly when the unwrap step yields a payload whose JSON parse — of the
isolated slice for a textual payload, of the comma-joined string coercion
for an array payload — yields `v` (any such `v` is returned, with or
without `summary` and `comments` fields); and it returns an error exactly
when the unwrap step itself fails (envelope parse failure, or a truthy
`result` whose string-method access throws) or that JSON parse fails. -/
theorem C6_error_iff_json_parse_fails (review llmChoice : String) :
    (∀ v, parseReviewResponse review llmChoice = .ok v ↔
      ((∃ t, unwrapClaude (jsTrim review) llmChoice = .ok (.toIsolate t) ∧
        jsonParse (isolateJson t) = some v) ∨
       (∃ t, unwrapClaude (jsTrim review) llmChoice = .ok (.toParse t) ∧
        jsonParse t = some v))) ∧
    ((∃ e, parseReviewResponse review llmChoice = .error e) ↔
      ((∃ e, unwrapClaude (jsTrim review) llmChoice = .error e) ∨
       (∃ t, unwrapClaude (jsTrim review) llmChoice = .ok (.toIsolate t) ∧
        jsonParse (isolateJson t) = none) ∨
       (∃ t, unwrapClaude (jsTrim review) llmChoice = .ok (.toParse t) ∧
        jsonParse t = none))) := by
  constructor
  · intro v
    constructor
    · intro h
      cases hU : unwrapClaude (jsTrim review) llmChoice with
      | error e => rw [parseRR_error_unwrap hU] at h; cases h
      | ok u =>
        cases u with
        | toIsolate t =>
          cases hP : jsonParse (isolateJson t) with
          | some w =>
            rw [parseRR_toIsolate_ok hU hP] at h
            cases h
            exact Or.inl ⟨t, rfl, hP⟩
          | none => rw [parseRR_toIsolate_err hU hP] at h; cases h
        | toParse t =>
          cases hP : jsonParse t with
          | some w =>
            rw [parseRR_toParse_ok hU hP] at h
            cases h
            exact Or.inr ⟨t, rfl, hP⟩
          | none => rw [parseRR_toParse_err hU hP] at h; cases h
    · rintro (⟨t, hU, hP⟩ | ⟨t, hU, hP⟩)
      · exact parseRR_toIsolate_ok hU hP
      · exact parseRR_toParse_ok hU hP
  · constructor
    · rintro ⟨e, he⟩
      cases hU : unwrapClaude (jsTrim review) llmChoice with
      | error e' => exact Or.inl ⟨e', rfl⟩
      | ok u =>
        cases u with
        | toIsolate t =>
          cases hP : jsonParse (isolateJson t) with
          | some w => rw [parseRR_toIsolate_ok hU hP] at he; cases he
          | none => exact Or.inr (Or.inl ⟨t, rfl, hP⟩)
        | toParse t =>
          cases hP : jsonParse t with
          | some w => rw [parseRR_toParse_ok hU hP] at he; cases he
          | none => exact Or.inr (Or.inr ⟨t, rfl, hP⟩)
    · rintro (⟨e, hU⟩ | ⟨t, hU, hP⟩ | ⟨t, hU, hP⟩)
      · exact ⟨e, parseRR_error_unwrap hU⟩
      · exact ⟨_, parseRR_toIsolate_err hU hP⟩
      · exact ⟨_, parseRR_toParse_err hU hP⟩

/-! ## Claims on the strategy ladder (C2, C3, C4) -/

/-- Counterexample to claim C2 as stated: on this input no exact or fuzzy
match succeeds and a keyword match above the acceptance threshold exists
(line 2, confidence 0.8 > 0.6), yet the resolve step returns the
original-line fallback (line 1, `original_line_kept`), not the keyword
match: the original-line fallback is tried before the keyword strategy. -/
theorem C2_strategy_order_counterexample :
    exactLoop (extractCodeSnippetsFromComment "zebra quokka walrus wombat")
      (jsSplitNlStr "hello there\nzebra quokka walrus wombat code") = none ∧
    fuzzyLoop (extractCodeSnippetsFromComment "zebra quokka walrus wombat")
      (jsSplitNlStr "hello there\nzebra quokka walrus wombat code") = none ∧
    findKeywordMatch "zebra quokka walrus wombat"
      (jsSplitNlStr "hello there\nzebra quokka walrus wombat code") =
      some ⟨2, "zebra quokka walrus wombat code", 4/5⟩ ∧
    (4/5 : ℚ) > 3/5 ∧
    findActualLineFromContent
      ⟨"f", 1, "zebra quokka walrus wombat", none, none, none, none, false⟩
      "hello there\nzebra quokka walrus wombat code" =
      some ⟨"f", 1, "zebra quokka walrus wombat", none,
        some "original_line_kept", none, some (1/2), true⟩ ∧
    (some "original_line_kept" : Option String) ≠ some "keyword_match" := by
  with_unfolding_all decide

/-- Claim C2 as amended (corrected): the resolve step tries the strategies
in the order exact match, fuzzy match, original-line fallback, keyword
match.  Whenever no exact or fuzzy match succeeds and the originally
claimed line is in range and non-blank, `original_line_kept` (confidence
0.5) is returned — even when a keyword match above the 0.6 acceptance
threshold exists; the keyword strategy is consulted only when the
original-line fallback also fails. -/
theorem C2_strategy_order (c : RComment) (content : String)
    (hE : exactLoop (extractCodeSnippetsFromComment c.comment)
      (jsSplitNlStr content) = none)
    (hF : fuzzyLoop (extractCodeSnippetsFromComment c.comment)
      (jsSplitNlStr content) = none)
    (hL : c.line ≠ 0 ∧ 1 ≤ c.line ∧ c.line ≤ ((jsSplitNlStr content).length : Int))
    (hT : (jsSplitNlStr content).getD (c.line - 1).toNat "" ≠ "" ∧
      jsTrim ((jsSplitNlStr content).getD (c.line - 1).toNat "") ≠ "")
    (m : MatchResult)
    (hK : findKeywordMatch c.comment (jsSplitNlStr content) = some m)
    (hKc : m.confidence > 3/5) :
    findActualLineFromContent c content =
      some { c with correctionMethod := some "original_line_kept",
                    confidence := some (1/2), lineWarning := true } := by
  simp only [findActualLineFromContent]
  rw [hE, hF, if_pos hL, if_pos hT]

/-- Witness for C2's amended theorem at a concrete input. -/
theorem C2_strategy_order_witness :
    findActualLineFromContent
      ⟨"f", 1, "zebra quokka walrus wombat", none, none, none, none, false⟩
      "hello there\nzebra quokka walrus wombat code" =
      some ⟨"f", 1, "zebra quokka walrus wombat", none,
        some "original_line_kept", none, some (1/2), true⟩ :=
  C2_strategy_order
    ⟨"f", 1, "zebra quokka walrus wombat", none, none, none, none, false⟩
    "hello there\nzebra quokka walrus wombat code"
    (by with_unfolding_all decide) (by with_unfolding_all decide)
    (by with_unfolding_all decide) (by with_unfolding_all decide)
    ⟨2, "zebra quokka walrus wombat code", 4/5⟩
    (by with_unfolding_all decide) (by with_unfolding_all decide)

/-- Counterexample to claim C3 as stated: the comment yields five keywords
and the best-scoring line contains three of them, a normalised score of 0.6
> 0.5, so `findKeywordMatch` selects it (confidence `min(0.8, 0.6) = 0.6`);
but the resolve step accepts a keyword match only above confidence 0.6, so
the comment is dropped rather than accepted. -/
theorem C3_keyword_threshold_counterexample :
    extractKeywords "zebra quokka walrus ferret badger" =
      ["zebra", "quokka", "walrus", "ferret", "badger"] ∧
    findKeywordMatch "zebra quokka walrus ferret badger"
      (jsSplitNlStr "zebra quokka walrus") =
      some ⟨1, "zebra quokka walrus", 3/5⟩ ∧
    (3/5 : ℚ) > 1/2 ∧
    findActualLineFromContent
      ⟨"f", 0, "zebra quokka walrus ferret badger", none, none, none, none, false⟩
      "zebra quokka walrus" = none := by
  with_unfolding_all decide

/-- Claim C3 as amended (corrected): when the earlier strategies (exact,
fuzzy, original-line) all fail, the best keyword match selected by
`findKeywordMatch` (best normalised score > 0.5, confidence
`min(0.8, score)`) is surfaced by the resolve step with method
`keyword_match` only when that confidence exceeds 0.6; at confidence ≤ 0.6
the comment is dropped. -/
theorem C3_keyword_accept_above_point_six (c : RComment) (content : String)
    (m : MatchResult)
    (hE : exactLoop (extractCodeSnippetsFromComment c.comment)
      (jsSplitNlStr content) = none)
    (hF : fuzzyLoop (extractCodeSnippetsFromComment c.comment)
      (jsSplitNlStr content) = none)
    (hO : ¬ ((c.line ≠ 0 ∧ 1 ≤ c.line ∧
        c.line ≤ ((jsSplitNlStr content).length : Int)) ∧
      ((jsSplitNlStr content).getD (c.line - 1).toNat "" ≠ "" ∧
        jsTrim ((jsSplitNlStr content).getD (c.line - 1).toNat "") ≠ "")))
    (hK : findKeywordMatch c.comment (jsSplitNlStr content) = some m) :
    (m.confidence > 3/5 →
      findActualLineFromContent c content =
        some { c with line := (m.lineNumber : Int), originalLine := some c.line,
                      correctionMethod := some "keyword_match",
                      confidence := some m.confidence }) ∧
    (¬ m.confidence > 3/5 → findActualLineFromContent c content = none) := by
  have hStep : findActualLineFromContent c content =
      keywordStep c (jsSplitNlStr content) := by
    simp only [findActualLineFromContent]
    rw [hE, hF]
    by_cases hA : c.line ≠ 0 ∧ 1 ≤ c.line ∧
        c.line ≤ ((jsSplitNlStr content).length : Int)
    · rw [if_pos hA, if_neg (fun hB => hO ⟨hA, hB⟩)]
    · rw [if_neg hA]
  constructor
  · intro h
    rw [hStep]
    unfold keywordStep
    rw [hK]
    simp [h]
  · intro h
    rw [hStep]
    unfold keywordStep
    rw [hK]
    simp [h]

/-- Witness for C3's amended theorem at a concrete input (score 1,
confidence capped at 0.8 > 0.6: the match is surfaced). -/
theorem C3_keyword_accept_above_point_six_witness :
    ((4/5 : ℚ) > 3/5 →
      findActualLineFromContent
        ⟨"g", 0, "alpaca gerbil donkey", none, none, none, none, false⟩
        "alpaca gerbil donkey here" =
        some ⟨"g", 1, "alpaca gerbil donkey", some 0,
          some "keyword_match", none, some (4/5), false⟩) ∧
    (¬ (4/5 : ℚ) > 3/5 →
      findActualLineFromContent
        ⟨"g", 0, "alpaca gerbil donkey", none, none, none, none, false⟩
        "alpaca gerbil donkey here" = none) :=
  C3_keyword_accept_above_point_six
    ⟨"g", 0, "alpaca gerbil donkey", none, none, none, none, false⟩
    "alpaca gerbil donkey here"
    ⟨1, "alpaca gerbil donkey here", 4/5⟩
    (by with_unfolding_all decide) (by with_unfolding_all decide)
    (by with_unfolding_all decide) (by with_unfolding_all decide)

/-- The file of the spec's Scenario A: 42 lines whose line 42 is
`if (retries == 3) \x7b`. -/
def scenarioAContent : String :=
  String.intercalate "\n"
    ("// app entry" :: (List.replicate 40 "x" ++ ["if (retries == 3) \x7b"]))

/-- Counterexample to claim C4 as stated: on a 42-line file whose line 42
is `if (retries == 3) \x7b`, resolving the Scenario A comment does not
return line 42 with `exact_match`: the only extracted snippet is the
single character `3`, which the length filter discards, so the resolve
step keeps the originally claimed line 1 with `original_line_kept`. -/
theorem C4_scenario_a_counterexample :
    (jsSplitNlStr scenarioAContent).getD 41 "" = "if (retries == 3) \x7b" ∧
    (jsSplitNlStr scenarioAContent).length = 42 ∧
    extractCodeSnippetsFromComment "The retry limit `3` should be configurable" = [] ∧
    findActualLineFromContent
      ⟨"app.js", 1, "The retry limit `3` should be configurable",
        none, none, none, none, false⟩ scenarioAContent =
      some ⟨"app.js", 1, "The retry limit `3` should be configurable",
        none, some "original_line_kept", none, some (1/2), true⟩ ∧
    (some "original_line_kept" : Option String) ≠ some "exact_match" := by
  with_unfolding_all decide

/-- Claim C4 as amended (corrected): for any file whose first line is
non-blank, resolving the Scenario A comment `\x7b file: "app.js", line: 1,
comment: "The retry limit \`3\` should be configurable" \x7d` returns
line 1 with method `original_line_kept` and confidence 0.5 — not line 42
with `exact_match` — because the quoted snippet `3` is only one character
long and is filtered out before matching. -/
theorem C4_scenario_a_keeps_original_line (content : String)
    (h1 : (jsSplitNlStr content).getD 0 "" ≠ "")
    (h2 : jsTrim ((jsSplitNlStr content).getD 0 "") ≠ "") :
    findActualLineFromContent
      ⟨"app.js", 1, "The retry limit `3` should be configurable",
        none, none, none, none, false⟩ content =
      some ⟨"app.js", 1, "The retry limit `3` should be configurable",
        none, some "original_line_kept", none, some (1/2), true⟩ := by
  have hs : extractCodeSnippetsFromComment
      "The retry limit `3` should be configurable" = [] := by
    with_unfolding_all decide
  simp only [findActualLineFromContent, hs, exactLoop, fuzzyLoop]
  have hlen : (1 : Int) ≤ ((jsSplitNlStr content).length : Int) := by
    exact_mod_cast length_jsSplitNlStr_pos content
  rw [if_pos ⟨by decide, by norm_num, hlen⟩]
  have hidx : (((1 : Int) - 1).toNat) = 0 := by decide
  rw [hidx] at *
  rw [if_pos ⟨h1, h2⟩]

/-- Witness for C4's amended theorem at a concrete two-line file. -/
theorem C4_scenario_a_keeps_original_line_witness :
    findActualLineFromContent
      ⟨"app.js", 1, "The retry limit `3` should be configurable",
        none, none, none, none, false⟩ "hello\nworld" =
      some ⟨"app.js", 1, "The retry limit `3` should be configurable",
        none, some "original_line_kept", none, some (1/2), true⟩ :=
  C4_scenario_a_keeps_original_line "hello\nworld"
    (by with_unfolding_all decide) (by with_unfolding_all decide)

/-! ## Claim C5: the exact-match property of backtick-quoted line text -/

theorem mem_dedupFirst {a : String} : ∀ {l : List String}, a ∈ dedupFirst l ↔ a ∈ l := by
  intro l
  induction l with
  | nil => simp [dedupFirst]
  | cons x xs ih =>
    by_cases hax : a = x
    · subst hax
      simp [dedupFirst]
    · simp [dedupFirst, List.mem_filter, ih, hax]

theorem trimL_infix_self (cs : List Char) : trimL cs <:+: cs := by
  unfold trimL
  have h1 : ((cs.dropWhile jsWs).reverse.dropWhile jsWs).reverse <+:
      cs.dropWhile jsWs := by
    have := List.reverse_prefix.mpr
      (List.dropWhile_suffix (l := (cs.dropWhile jsWs).reverse) jsWs)
    rwa [List.reverse_reverse] at this
  exact h1.isInfix.trans (List.dropWhile_suffix jsWs).isInfix

theorem idxOfL_isSome_of_sub : ∀ {cs needle : List Char},
    needle <:+: cs → (idxOfL cs needle).isSome := by
  intro cs
  induction cs with
  | nil =>
    intro needle h
    rw [List.eq_nil_of_infix_nil h]
    simp [idxOfL, List.isPrefixOf]
  | cons c cs ih =>
    intro needle h
    rcases List.infix_cons_iff.mp h with hp | hi
    · have : needle.isPrefixOf (c :: cs) := List.isPrefixOf_iff_prefix.mpr hp
      simp [idxOfL, this]
    · by_cases hp : needle.isPrefixOf (c :: cs)
      · simp [idxOfL, hp]
      · simp only [idxOfL, if_neg hp]
        have hrec := ih hi
        cases hx : idxOfL cs needle with
        | none => rw [hx] at hrec; cases hrec
        | some n => simp [hx]

theorem jsIncludes_of_trim {line s : String} (h : jsTrim line = s) :
    jsIncludes line s = true := by
  subst h
  unfold jsIncludes inclL
  exact idxOfL_isSome_of_sub (trimL_infix_self line.toList)

theorem findExactAux_isSome_of_mem {s : String} (hnum : isPureNumber s = false) :
    ∀ (lines : List String) (i : Nat) (line : String), line ∈ lines →
      jsIncludes line s = true → (findExactAux s lines i).isSome := by
  intro lines
  induction lines with
  | nil => intro i line hmem _; cases hmem
  | cons l ls ih =>
    intro i line hmem hinc
    cases hhit : exactHit s l with
    | true => simp [findExactAux, hhit]
    | false =>
      simp only [findExactAux, hhit, Bool.false_eq_true, if_false]
      rcases List.mem_cons.mp hmem with heq | hmem'
      · subst heq
        rw [show exactHit s line = jsIncludes line s by simp [exactHit, hnum]]
          at hhit
        rw [hinc] at hhit
        cases hhit
      · exact ih (i + 1) line hmem' hinc

theorem exactLoop_isSome_of_mem (lines : List String) :
    ∀ {snips : List String} {s : String}, s ∈ snips →
      (findExactCodeMatch s lines).isSome → (exactLoop snips lines).isSome := by
  intro snips
  induction snips with
  | nil => intro s hmem _; cases hmem
  | cons a as ih =>
    intro s hmem hsome
    simp only [exactLoop]
    cases hfa : findExactCodeMatch a lines with
    | some m => simp
    | none =>
      rcases List.mem_cons.mp hmem with heq | hmem'
      · subst heq; rw [hfa] at hsome; cases hsome
      · exact ih hmem' hsome

theorem findActual_of_exactLoop {c : RComment} {content : String}
    {p : String × MatchResult}
    (h : exactLoop (extractCodeSnippetsFromComment c.comment)
      (jsSplitNlStr content) = some p) :
    findActualLineFromContent c content =
      some { c with line := (p.2.lineNumber : Int), originalLine := some c.line,
                    correctionMethod := some "exact_match",
                    matchedCode := some p.1, confidence := some 1 } := by
  obtain ⟨s, m⟩ := p
  simp only [findActualLineFromContent]
  rw [h]

/-- Counterexample to claim C5 as stated: in the file `"ab c\nab"` the
trimmed text of line 2 is `ab`, quoted in backticks by the comment; but the
exact-match scan returns the first line containing the snippet as a
substring — line 1 — not line 2. -/
theorem C5_exact_match_counterexample :
    jsTrim ((jsSplitNlStr "ab c\nab").getD 1 "") = "ab" ∧
    extractCodeSnippetsFromComment "use `ab` here" = ["ab"] ∧
    findActualLineFromContent
      ⟨"f", 2, "use `ab` here", none, none, none, none, false⟩ "ab c\nab" =
      some ⟨"f", 1, "use `ab` here", some 2, some "exact_match",
        some "ab", some 1, false⟩ ∧
    (1 : Int) ≠ 2 := by
  with_unfolding_all decide

/-- Claim C5 as amended (corrected): for every file and every line whose
whitespace-trimmed text appears (after backtick stripping and trimming) as
a backtick-quoted snippet of the comment, is longer than one character and
is not purely numeric, the resolve step succeeds with confidence 1.0 and
method `exact_match` — but the resolved line is the first line containing
the first matching snippet, which need not be the quoted line itself. -/
theorem C5_quoted_line_gives_exact_match (c : RComment) (content : String)
    (s : String) (line : String)
    (hmem : line ∈ jsSplitNlStr content)
    (htrim : jsTrim line = s)
    (hlen : 1 < s.toList.length)
    (hnum : isPureNumber s = false)
    (hbt : s ∈ (scanStr tryBacktick c.comment).map
      (fun m => jsTrim ⟨m.toList.filter (fun ch => ch ≠ '`')⟩)) :
    ∃ c', findActualLineFromContent c content = some c' ∧
      c'.correctionMethod = some "exact_match" ∧ c'.confidence = some 1 := by
  have hsnip : s ∈ extractCodeSnippetsFromComment c.comment := by
    unfold extractCodeSnippetsFromComment
    refine List.mem_filter.mpr ⟨mem_dedupFirst.mpr ?_, by simpa using hlen⟩
    exact List.mem_append.mpr (Or.inl (List.mem_append.mpr (Or.inl
      (List.mem_append.mpr (Or.inl (List.mem_append.mpr (Or.inl hbt)))))))
  have hexact : (findExactCodeMatch s (jsSplitNlStr content)).isSome := by
    unfold findExactCodeMatch
    exact findExactAux_isSome_of_mem hnum _ 0 line hmem (jsIncludes_of_trim htrim)
  have hloop := exactLoop_isSome_of_mem (jsSplitNlStr content) hsnip hexact
  obtain ⟨p, hp⟩ := Option.isSome_iff_exists.mp hloop
  exact ⟨_, findActual_of_exactLoop hp, rfl, rfl⟩

/-- Witness for C5's amended theorem at a concrete input. -/
theorem C5_quoted_line_gives_exact_match_witness :
    ∃ c', findActualLineFromContent
        ⟨"f", 3, "see `xy` ok", none, none, none, none, false⟩ "ab\nxy" =
        some c' ∧
      c'.correctionMethod = some "exact_match" ∧ c'.confidence = some 1 :=
  C5_quoted_line_gives_exact_match
    ⟨"f", 3, "see `xy` ok", none, none, none, none, false⟩ "ab\nxy" "xy" "xy"
    (by with_unfolding_all decide) (by with_unfolding_all decide)
    (by with_unfolding_all decide) (by with_unfolding_all decide)
    (by with_unfolding_all decide)

/-! ## Claims C1 and C8: bounds invariant and totality of reconciliation -/

theorem findExactAux_bounds {s : String} :
    ∀ (lines : List String) (i : Nat) (m : MatchResult),
      findExactAux s lines i = some m →
      i < m.lineNumber ∧ m.lineNumber ≤ i + lines.length := by
  intro lines
  induction lines with
  | nil => intro i m h; simp [findExactAux] at h
  | cons l ls ih =>
    intro i m h
    cases hhit : exactHit s l with
    | true =>
      simp only [findExactAux, hhit, if_true] at h
      cases h
      simp only [List.length_cons]
      omega
    | false =>
      simp only [findExactAux, hhit, Bool.false_eq_true, if_false] at h
      obtain ⟨h1, h2⟩ := ih (i + 1) m h
      simp only [List.length_cons]
      omega

theorem findFuzzyAux_bounds {s : String} :
    ∀ (lines : List String) (i : Nat) (best : Option MatchResult) (bs : ℚ)
      (m : MatchResult),
      findFuzzyAux s lines i best bs = some m →
      best = some m ∨ (i < m.lineNumber ∧ m.lineNumber ≤ i + lines.length) := by
  intro lines
  induction lines with
  | nil => intro i best bs m h; exact Or.inl h
  | cons l ls ih =>
    intro i best bs m h
    simp only [findFuzzyAux] at h
    by_cases hbl : jsTrim l = ""
    · rw [if_pos hbl] at h
      rcases ih (i + 1) best bs m h with he | ⟨h1, h2⟩
      · exact Or.inl he
      · exact Or.inr ⟨by omega, by simp only [List.length_cons]; omega⟩
    · rw [if_neg hbl] at h
      by_cases hup : calculateSimilarity s (jsTrim l) > bs ∧
          calculateSimilarity s (jsTrim l) > 7/10
      · rw [if_pos hup] at h
        rcases ih (i + 1) _ _ m h with he | ⟨h1, h2⟩
        · have hln : m.lineNumber = i + 1 := by cases he; rfl
          exact Or.inr ⟨by omega, by simp only [List.length_cons]; omega⟩
        · exact Or.inr ⟨by omega, by simp only [List.length_cons]; omega⟩
      · rw [if_neg hup] at h
        rcases ih (i + 1) best bs m h with he | ⟨h1, h2⟩
        · exact Or.inl he
        · exact Or.inr ⟨by omega, by simp only [List.length_cons]; omega⟩

theorem findKeywordAux_bounds {keywords : List String} :
    ∀ (lines : List String) (i : Nat) (best : Option MatchResult) (bs : ℚ)
      (m : MatchResult),
      findKeywordAux keywords lines i best bs = some m →
      best = some m ∨ (i < m.lineNumber ∧ m.lineNumber ≤ i + lines.length) := by
  intro lines
  induction lines with
  | nil => intro i best bs m h; exact Or.inl h
  | cons l ls ih =>
    intro i best bs m h
    simp only [findKeywordAux] at h
    by_cases hbl : jsTrim (jsLower l) = ""
    · rw [if_pos hbl] at h
      rcases ih (i + 1) best bs m h with he | ⟨h1, h2⟩
      · exact Or.inl he
      · exact Or.inr ⟨by omega, by simp only [List.length_cons]; omega⟩
    · rw [if_neg hbl] at h
      by_cases hup :
          (((keywords.filter
              (fun k => jsIncludes (jsLower l) (jsLower k))).length : ℚ) /
            (keywords.length : ℚ)) > bs ∧
          (((keywords.filter
              (fun k => jsIncludes (jsLower l) (jsLower k))).length : ℚ) /
            (keywords.length : ℚ)) > 1/2
      · rw [if_pos hup] at h
        rcases ih (i + 1) _ _ m h with he | ⟨h1, h2⟩
        · have hln : m.lineNumber = i + 1 := by cases he; rfl
          exact Or.inr ⟨by omega, by simp only [List.length_cons]; omega⟩
        · exact Or.inr ⟨by omega, by simp only [List.length_cons]; omega⟩
      · rw [if_neg hup] at h
        rcases ih (i + 1) best bs m h with he | ⟨h1, h2⟩
        · exact Or.inl he
        · exact Or.inr ⟨by omega, by simp only [List.length_cons]; omega⟩

theorem exactLoop_bounds {lines : List String} :
    ∀ {snips : List String} {p : String × MatchResult},
      exactLoop snips lines = some p →
      1 ≤ p.2.lineNumber ∧ p.2.lineNumber ≤ lines.length := by
  intro snips
  induction snips with
  | nil => intro p h; cases h
  | cons a as ih =>
    intro p h
    cases hfa : findExactCodeMatch a lines with
    | some m =>
      simp only [exactLoop, hfa] at h
      cases h
      obtain ⟨h1, h2⟩ := findExactAux_bounds lines 0 m hfa
      have h1' : 1 ≤ m.lineNumber := by omega
      have h2' : m.lineNumber ≤ lines.length := by omega
      exact ⟨h1', h2'⟩
    | none =>
      simp only [exactLoop, hfa] at h
      exact ih h

theorem fuzzyLoop_bounds {lines : List String} :
    ∀ {snips : List String} {p : String × MatchResult},
      fuzzyLoop snips lines = some p →
      1 ≤ p.2.lineNumber ∧ p.2.lineNumber ≤ lines.length := by
  intro snips
  induction snips with
  | nil => intro p h; cases h
  | cons a as ih =>
    intro p h
    cases hfa : findFuzzyCodeMatch a lines with
    | some m =>
      simp only [fuzzyLoop, hfa] at h
      by_cases hc : m.confidence > 4/5
      · rw [if_pos hc] at h
        cases h
        rcases findFuzzyAux_bounds lines 0 none 0 m hfa with he | ⟨h1, h2⟩
        · cases he
        · have h1' : 1 ≤ m.lineNumber := by omega
          have h2' : m.lineNumber ≤ lines.length := by omega
          exact ⟨h1', h2'⟩
      · rw [if_neg hc] at h
        exact ih h
    | none =>
      simp only [fuzzyLoop, hfa] at h
      exact ih h

theorem keywordStep_bounds {c : RComment} {lines : List String} {c' : RComment}
    (h : keywordStep c lines = some c') :
    c'.file = c.file ∧ c'.comment = c.comment ∧
      1 ≤ c'.line ∧ c'.line ≤ (lines.length : Int) := by
  unfold keywordStep at h
  cases hk : findKeywordMatch c.comment lines with
  | none =>
    simp only [hk] at h
    exact Option.noConfusion h
  | some m =>
    simp only [hk] at h
    by_cases hc : m.confidence > 3/5
    · rw [if_pos hc] at h
      cases h
      unfold findKeywordMatch at hk
      by_cases hkw : (extractKeywords c.comment).isEmpty
      · rw [if_pos hkw] at hk; cases hk
      · rw [if_neg hkw] at hk
        rcases findKeywordAux_bounds lines 0 none 0 m hk with he | ⟨h1, h2⟩
        · cases he
        · have h1' : 1 ≤ m.lineNumber := by omega
          have h2' : m.lineNumber ≤ lines.length := by omega
          refine ⟨rfl, rfl, ?_, ?_⟩
          · show (1 : Int) ≤ ((m.lineNumber : Nat) : Int)
            exact_mod_cast h1'
          · show ((m.lineNumber : Nat) : Int) ≤ (lines.length : Int)
            exact_mod_cast h2'
    · rw [if_neg hc] at h
      cases h

theorem findActual_bounds {c : RComment} {content : String} {c' : RComment}
    (h : findActualLineFromContent c content = some c') :
    c'.file = c.file ∧ 1 ≤ c'.line ∧
      c'.line ≤ ((jsSplitNlStr content).length : Int) := by
  cases hE : exactLoop (extractCodeSnippetsFromComment c.comment)
      (jsSplitNlStr content) with
  | some p =>
    obtain ⟨ps, pm⟩ := p
    simp only [findActualLineFromContent, hE] at h
    cases h
    obtain ⟨h1, h2⟩ := exactLoop_bounds hE
    refine ⟨rfl, ?_, ?_⟩
    · show (1 : Int) ≤ ((pm.lineNumber : Nat) : Int)
      exact_mod_cast h1
    · show ((pm.lineNumber : Nat) : Int) ≤ ((jsSplitNlStr content).length : Int)
      exact_mod_cast h2
  | none =>
    cases hF : fuzzyLoop (extractCodeSnippetsFromComment c.comment)
        (jsSplitNlStr content) with
    | some p =>
      obtain ⟨ps, pm⟩ := p
      simp only [findActualLineFromContent, hE, hF] at h
      cases h
      obtain ⟨h1, h2⟩ := fuzzyLoop_bounds hF
      refine ⟨rfl, ?_, ?_⟩
      · show (1 : Int) ≤ ((pm.lineNumber : Nat) : Int)
        exact_mod_cast h1
      · show ((pm.lineNumber : Nat) : Int) ≤ ((jsSplitNlStr content).length : Int)
        exact_mod_cast h2
    | none =>
      simp only [findActualLineFromContent, hE, hF] at h
      by_cases hL : c.line ≠ 0 ∧ 1 ≤ c.line ∧
          c.line ≤ ((jsSplitNlStr content).length : Int)
      · rw [if_pos hL] at h
        by_cases hT : (jsSplitNlStr content).getD (c.line - 1).toNat "" ≠ "" ∧
            jsTrim ((jsSplitNlStr content).getD (c.line - 1).toNat "") ≠ ""
        · rw [if_pos hT] at h
          cases h
          exact ⟨rfl, hL.2.1, hL.2.2⟩
        · rw [if_neg hT] at h
          obtain ⟨hf, _, h1, h2⟩ := keywordStep_bounds h
          exact ⟨hf, h1, h2⟩
      · rw [if_neg hL] at h
        obtain ⟨hf, _, h1, h2⟩ := keywordStep_bounds h
        exact ⟨hf, h1, h2⟩

theorem validateOne_some {m : List (String × String)} {c c' : RComment}
    (h : validateOne m c = some c') :
    ∃ content, mapGet m c.file = some content ∧ content ≠ "" ∧
      findActualLineFromContent c content = some c' := by
  unfold validateOne at h
  cases hm : mapGet m c.file with
  | none =>
    simp only [hm] at h
    exact Option.noConfusion h
  | some content =>
    simp only [hm] at h
    by_cases hne : content = ""
    · rw [if_pos hne] at h; cases h
    · rw [if_neg hne] at h
      exact ⟨content, rfl, hne, h⟩

theorem validate_result {review : Review} {cs : List RComment}
    {fileContext : String} (hcs : review.comments = some cs)
    (hctx : fileContext ≠ "") :
    validateAndFixLineNumbers review fileContext =
      { review with
        comments := some (cs.filterMap (validateOne (parseFileContents fileContext))) } := by
  have hni : ¬ (fileContext = "" ∨ review.comments = none) := by
    rintro (h | h)
    · exact hctx h
    · rw [hcs] at h; cases h
  unfold validateAndFixLineNumbers
  rw [if_neg hni, hcs]

/-- Claim C1 (confirmed): for every parsed review with comments and a
non-empty file-context blob, every comment in the output of
`validateAndFixLineNumbers` refers to a file present in the parsed context
and carries a line number `n` with `1 ≤ n ≤` the number of lines of that
file's content (its content split on newline); a comment that cannot be
given such a line does not reach the output, since it is produced only
through `validateOne`. -/
theorem C1_bounds_invariant (review : Review) (cs : List RComment)
    (fileContext : String) (hctx : fileContext ≠ "")
    (hcs : review.comments = some cs) :
    ∀ c' ∈ ((validateAndFixLineNumbers review fileContext).comments.getD []),
      ∃ content, mapGet (parseFileContents fileContext) c'.file = some content ∧
        1 ≤ c'.line ∧ c'.line ≤ ((jsSplitNlStr content).length : Int) := by
  intro c' hc'
  rw [validate_result hcs hctx] at hc'
  simp only [Option.getD_some] at hc'
  obtain ⟨c, _, hv⟩ := List.mem_filterMap.mp hc'
  obtain ⟨content, hm, _, hfa⟩ := validateOne_some hv
  obtain ⟨hfile, h1, h2⟩ := findActual_bounds hfa
  exact ⟨content, by rw [hfile]; exact hm, h1, h2⟩

/-- Witness for C1 at a concrete review and context: the surviving
corrected comment (exact match on `hello`, line 1) is in bounds. -/
theorem C1_bounds_invariant_witness :
    ∃ content, mapGet (parseFileContents "--- a ---\nhello there\nworld")
        "a" = some content ∧
      (1 : Int) ≤ (1 : Int) ∧
      (1 : Int) ≤ ((jsSplitNlStr content).length : Int) :=
  C1_bounds_invariant
    { summary := "s", comments := some [⟨"a", 1, "touch `hello` here",
      none, none, none, none, false⟩] }
    [⟨"a", 1, "touch `hello` here", none, none, none, none, false⟩]
    "--- a ---\nhello there\nworld"
    (by with_unfolding_all decide) rfl
    ⟨"a", 1, "touch `hello` here", some 1, some "exact_match",
      some "hello", some 1, false⟩
    (by with_unfolding_all decide)

/-- Claim C8 (confirmed): for every parsed review with comments and
non-empty file context, `validateAndFixLineNumbers` (a total function in
this model — it never throws) preserves the summary, always returns a
comments list (possibly empty), and every returned comment's file is a key
of the parsed file-contents mapping: comments with unknown files are
dropped. -/
theorem C8_reconciliation_total (review : Review) (cs : List RComment)
    (fileContext : String) (hcs : review.comments = some cs)
    (hctx : fileContext ≠ "") :
    (validateAndFixLineNumbers review fileContext).summary = review.summary ∧
    (∃ cs', (validateAndFixLineNumbers review fileContext).comments = some cs' ∧
      ∀ c' ∈ cs',
        (mapGet (parseFileContents fileContext) c'.file).isSome) := by
  rw [validate_result hcs hctx]
  refine ⟨rfl, _, rfl, ?_⟩
  intro c' hc'
  obtain ⟨c, _, hv⟩ := List.mem_filterMap.mp hc'
  obtain ⟨content, hm, _, hfa⟩ := validateOne_some hv
  obtain ⟨hfile, _, _⟩ := findActual_bounds hfa
  rw [hfile, hm]
  rfl

/-- Witness for C8 at a concrete review whose only comment names a file
missing from the context (Scenario B): reconciliation still succeeds. -/
theorem C8_reconciliation_total_witness :
    (validateAndFixLineNumbers
      { summary := "ok", comments := some [⟨"missing.js", 1, "bad",
        none, none, none, none, false⟩] } "--- a.js ---\nx").summary = "ok" ∧
    (∃ cs', (validateAndFixLineNumbers
        { summary := "ok", comments := some [⟨"missing.js", 1, "bad",
          none, none, none, none, false⟩] } "--- a.js ---\nx").comments =
        some cs' ∧
      ∀ c' ∈ cs',
        (mapGet (parseFileContents "--- a.js ---\nx") c'.file).isSome) :=
  C8_reconciliation_total
    { summary := "ok", comments := some [⟨"missing.js", 1, "bad",
      none, none, none, none, false⟩] }
    [⟨"missing.js", 1, "bad", none, none, none, none, false⟩]
    "--- a.js ---\nx" rfl (by with_unfolding_all decide)

/-! ## Claim C9: `parseFileContents` refines the spec's per-section trimming

The code removes the leading and trailing newline runs of each section body
(`replace(/^\n+/, '')`, `replace(/\n+$/, '')`); the spec says leading and
trailing blank lines are removed.  The following lemmas prove the two
descriptions coincide for every body. -/

theorem splitNl_cons_nl (cs : List Char) :
    splitNl ('\n' :: cs) = [] :: splitNl cs := by
  simp [splitNl]

theorem splitNl_cons_other {c : Char} (hc : c ≠ '\n') (cs : List Char) :
    ∀ {t : List Char} {ts : List (List Char)}, splitNl cs = t :: ts →
      splitNl (c :: cs) = (c :: t) :: ts := by
  intro t ts hsp
  simp [splitNl, hc, hsp]

theorem joinNl_cons_ne {t : List Char} {ts : List (List Char)} (h : ts ≠ []) :
    joinNl (t :: ts) = t ++ '\n' :: joinNl ts := by
  cases ts with
  | nil => exact absurd rfl h
  | cons u ts => rfl

theorem joinNl_cons_cons (c : Char) (t : List Char) (ts : List (List Char)) :
    joinNl ((c :: t) :: ts) = c :: joinNl (t :: ts) := by
  cases ts <;> rfl

theorem joinNl_splitNl : ∀ cs : List Char, joinNl (splitNl cs) = cs := by
  intro cs
  induction cs with
  | nil => rfl
  | cons c cs ih =>
    by_cases hc : c = '\n'
    · subst hc
      rw [splitNl_cons_nl]
      cases hsp : splitNl cs with
      | nil => exact absurd hsp (splitNl_ne_nil cs)
      | cons t ts =>
        rw [joinNl_cons_ne (show (t :: ts : List (List Char)) ≠ [] by simp),
          ← hsp, ih]
        rfl
    · cases hsp : splitNl cs with
      | nil => exact absurd hsp (splitNl_ne_nil cs)
      | cons t ts =>
        rw [splitNl_cons_other hc cs hsp, joinNl_cons_cons, ← hsp, ih]

theorem splitNl_no_nl : ∀ (cs : List Char) (t : List Char),
    t ∈ splitNl cs → ('\n' : Char) ∉ t := by
  intro cs
  induction cs with
  | nil =>
    intro t ht
    simp only [splitNl, List.mem_singleton] at ht
    subst ht
    simp
  | cons c cs ih =>
    intro t ht
    by_cases hc : c = '\n'
    · subst hc
      rw [splitNl_cons_nl] at ht
      rcases List.mem_cons.mp ht with h | h
      · subst h; simp
      · exact ih t h
    · cases hsp : splitNl cs with
      | nil => exact absurd hsp (splitNl_ne_nil cs)
      | cons u ts =>
        rw [splitNl_cons_other hc cs hsp] at ht
        rcases List.mem_cons.mp ht with h | h
        · subst h
          intro hmem
          rcases List.mem_cons.mp hmem with h' | h'
          · exact hc h'.symm
          · exact ih u (by rw [hsp]; exact List.mem_cons_self u ts) h'
        · exact ih t (by rw [hsp]; exact List.mem_cons_of_mem u h)

theorem lemA : ∀ cs : List Char,
    joinNl (dropLeadEmpty (splitNl cs)) = stripNlPrefix cs := by
  intro cs
  induction cs with
  | nil => rfl
  | cons c cs ih =>
    by_cases hc : c = '\n'
    · subst hc
      rw [splitNl_cons_nl]
      have h1 : dropLeadEmpty ([] :: splitNl cs) = dropLeadEmpty (splitNl cs) := by
        simp [dropLeadEmpty, List.dropWhile_cons]
      have h2 : stripNlPrefix ('\n' :: cs) = stripNlPrefix cs := by
        simp [stripNlPrefix, List.dropWhile_cons]
      rw [h1, h2, ih]
    · cases hsp : splitNl cs with
      | nil => exact absurd hsp (splitNl_ne_nil cs)
      | cons t ts =>
        rw [splitNl_cons_other hc cs hsp]
        have h1 : dropLeadEmpty ((c :: t) :: ts) = (c :: t) :: ts := by
          simp [dropLeadEmpty, List.dropWhile_cons]
        rw [h1, joinNl_cons_cons, ← hsp, joinNl_splitNl]
        simp [stripNlPrefix, List.dropWhile_cons, hc]

theorem dropWhile_append_left {α : Type} {p : α → Bool} {a b : List α}
    (h : a.dropWhile p ≠ []) :
    (a ++ b).dropWhile p = a.dropWhile p ++ b := by
  rw [List.dropWhile_append]
  simp [List.isEmpty_iff, h]

theorem stripTrail_eq_self {t : List Char} (h : ('\n' : Char) ∉ t) :
    stripNlSuffix t = t := by
  unfold stripNlSuffix
  have : t.reverse.dropWhile (fun c => c = '\n') = t.reverse := by
    cases hr : t.reverse with
    | nil => rfl
    | cons x xs =>
      have hx : x ∈ t := by
        rw [← List.mem_reverse, hr]
        exact List.mem_cons_self x xs
      rw [List.dropWhile_cons, if_neg]
      simp only [decide_eq_true_eq]
      intro heq
      exact h (heq ▸ hx)
  rw [this, List.reverse_reverse]

theorem stripSuffix_append {x y : List Char} (h : stripNlSuffix y ≠ []) :
    stripNlSuffix (x ++ y) = x ++ stripNlSuffix y := by
  unfold stripNlSuffix at *
  rw [List.reverse_append, dropWhile_append_left, List.reverse_append,
    List.reverse_reverse]
  intro hnil
  rw [hnil] at h
  simp at h

theorem stripSuffix_append_replicate (x : List Char) (n : Nat) :
    stripNlSuffix (x ++ List.replicate n '\n') = stripNlSuffix x := by
  unfold stripNlSuffix
  rw [List.reverse_append, List.reverse_replicate,
    List.dropWhile_append_of_pos]
  intro a ha
  simp only [List.mem_replicate] at ha
  simp [ha.2]

theorem dropTrailEmpty_eq_nil_iff {l : List (List Char)} :
    dropTrailEmpty l = [] ↔ ∀ t ∈ l, t = [] := by
  unfold dropTrailEmpty
  rw [List.reverse_eq_nil_iff, List.dropWhile_eq_nil_iff]
  constructor
  · intro h t ht
    have := h t (List.mem_reverse.mpr ht)
    exact List.isEmpty_iff.mp this
  · intro h t ht
    exact List.isEmpty_iff.mpr (h t (List.mem_reverse.mp ht))

theorem dropTrailEmpty_cons (t : List Char) (l : List (List Char)) :
    dropTrailEmpty (t :: l) =
      if dropTrailEmpty l = [] then (if t = [] then [] else [t])
      else t :: dropTrailEmpty l := by
  by_cases hl : dropTrailEmpty l = []
  · rw [if_pos hl]
    have hall : ∀ x ∈ l.reverse, x.isEmpty = true := by
      intro x hx
      exact List.isEmpty_iff.mpr
        (dropTrailEmpty_eq_nil_iff.mp hl x (List.mem_reverse.mp hx))
    unfold dropTrailEmpty
    have : (t :: l).reverse = l.reverse ++ [t] := by simp
    rw [this, List.dropWhile_append_of_pos hall]
    by_cases ht : t = []
    · subst ht
      simp [List.dropWhile_cons]
    · rw [show ([t] : List (List Char)).dropWhile List.isEmpty = [t] by
        rw [List.dropWhile_cons, if_neg (by simp [List.isEmpty_iff, ht])]]
      simp [ht]
  · rw [if_neg hl]
    unfold dropTrailEmpty at *
    have hne : l.reverse.dropWhile List.isEmpty ≠ [] := by
      intro hnil
      rw [hnil] at hl
      simp at hl
    have : (t :: l).reverse = l.reverse ++ [t] := by simp
    rw [this, dropWhile_append_left hne]
    simp

theorem joinNl_all_empty : ∀ l : List (List Char), (∀ t ∈ l, t = []) →
    joinNl l = List.replicate (l.length - 1) '\n' := by
  intro l
  induction l with
  | nil => intro _; rfl
  | cons t l ih =>
    intro h
    have ht : t = [] := h t (List.mem_cons_self t l)
    subst ht
    cases l with
    | nil => rfl
    | cons u l' =>
      rw [joinNl_cons_ne (show (u :: l' : List (List Char)) ≠ [] by simp),
        ih (fun x hx => h x (List.mem_cons_of_mem _ hx))]
      simp [List.replicate_succ]

theorem dropWhile_head_false {α : Type} {p : α → Bool} :
    ∀ {L : List α} {y : α} {ys : List α}, L.dropWhile p = y :: ys →
      p y = false := by
  intro L
  induction L with
  | nil => intro y ys h; cases h
  | cons a L ih =>
    intro y ys h
    rw [List.dropWhile_cons] at h
    by_cases ha : p a = true
    · rw [if_pos ha] at h
      exact ih h
    · rw [if_neg ha] at h
      cases h
      simpa using ha

theorem joinNl_append_singleton_ne_nil :
    ∀ (L : List (List Char)) (y : List Char), y ≠ [] →
      joinNl (L ++ [y]) ≠ [] := by
  intro L
  induction L with
  | nil => intro y hy; simpa [joinNl] using hy
  | cons a L ih =>
    intro y hy
    rw [List.cons_append,
      joinNl_cons_ne (show L ++ [y] ≠ [] by simp)]
    simp

theorem joinNl_dropTrail_ne_nil {l : List (List Char)}
    (h : dropTrailEmpty l ≠ []) : joinNl (dropTrailEmpty l) ≠ [] := by
  have hne : l.reverse.dropWhile List.isEmpty ≠ [] := by
    intro hnil
    apply h
    unfold dropTrailEmpty
    rw [hnil]
    rfl
  cases hd : l.reverse.dropWhile List.isEmpty with
  | nil => exact absurd hd hne
  | cons y ys =>
    have hy : y ≠ [] := by
      have := dropWhile_head_false hd
      simpa [List.isEmpty_iff] using this
    have : dropTrailEmpty l = ys.reverse ++ [y] := by
      unfold dropTrailEmpty
      rw [hd]
      simp
    rw [this]
    exact joinNl_append_singleton_ne_nil ys.reverse y hy

theorem lemC : ∀ l : List (List Char), (∀ t ∈ l, ('\n' : Char) ∉ t) →
    stripNlSuffix (joinNl l) = joinNl (dropTrailEmpty l) := by
  intro l
  induction l with
  | nil => intro _; rfl
  | cons t l ih =>
    intro hmem
    cases l with
    | nil =>
      show stripNlSuffix (joinNl [t]) = joinNl (dropTrailEmpty [t])
      rw [show joinNl [t] = t from rfl,
        stripTrail_eq_self (hmem t (List.mem_cons_self t []))]
      by_cases ht : t = []
      · subst ht; rfl
      · rw [dropTrailEmpty_cons,
          if_pos (show dropTrailEmpty ([] : List (List Char)) = [] from rfl),
          if_neg ht]
        rfl
    | cons u l' =>
      rw [joinNl_cons_ne (show (u :: l' : List (List Char)) ≠ [] by simp)]
      by_cases hall : dropTrailEmpty (u :: l') = []
      · have hAll : ∀ x ∈ u :: l', x = [] := dropTrailEmpty_eq_nil_iff.mp hall
        rw [joinNl_all_empty (u :: l') hAll]
        rw [show (t ++ '\n' :: List.replicate ((u :: l').length - 1) '\n') =
            t ++ List.replicate ((u :: l').length - 1 + 1) '\n' by
          simp [List.replicate_succ]]
        rw [stripSuffix_append_replicate,
          stripTrail_eq_self (hmem t (List.mem_cons_self t _))]
        rw [dropTrailEmpty_cons, if_pos hall]
        by_cases ht : t = []
        · subst ht; rw [if_pos rfl]; rfl
        · rw [if_neg ht]; rfl
      · have ihl : stripNlSuffix (joinNl (u :: l')) =
            joinNl (dropTrailEmpty (u :: l')) :=
          ih (fun x hx => hmem x (List.mem_cons_of_mem _ hx))
        have hne : stripNlSuffix (joinNl (u :: l')) ≠ [] := by
          rw [ihl]
          exact joinNl_dropTrail_ne_nil hall
        rw [show (t ++ '\n' :: joinNl (u :: l')) =
            (t ++ ['\n']) ++ joinNl (u :: l') by simp]
        rw [stripSuffix_append hne, ihl]
        conv_rhs => rw [dropTrailEmpty_cons, if_neg hall, joinNl_cons_ne hall]
        simp

theorem strip_equiv (cs : List Char) :
    stripNlSuffix (stripNlPrefix cs) =
      joinNl (dropTrailEmpty (dropLeadEmpty (splitNl cs))) := by
  rw [← lemA cs]
  exact lemC _ (fun t ht =>
    splitNl_no_nl cs t ((List.dropWhile_sublist _).subset ht))

/-- Claim C9 (confirmed): `parseFileContents` maps each header line
`--- <path> ---` of the context blob to that section's body with leading
and trailing blank lines removed (its newline-run stripping is exactly the
spec's blank-line trimming), and a section whose body is empty after this
trimming contributes no mapping entry: it agrees with the spec-worded
`parseFileContentsSpec` on every input. -/
theorem C9_parseFileContents_refines_spec (ctx : String) :
    parseFileContents ctx = parseFileContentsSpec ctx := by
  have hstep : pfcStep = pfcStepSpec := by
    funext m nb
    unfold pfcStep pfcStepSpec
    by_cases hn : nb.1 = ""
    · rw [if_neg (by simp [hn]), if_neg (by simp [hn])]
    · by_cases hb : nb.2 = []
      · rw [if_neg (by simp [hb])]
        rw [if_pos hn, hb]
        rw [show joinNl (dropTrailEmpty (dropLeadEmpty (splitNl []))) =
            [] from rfl]
        simp
      · rw [if_pos ⟨hn, hb⟩, if_pos hn, strip_equiv]
  unfold parseFileContents parseFileContentsSpec
  rw [hstep]

end AiCodeReview
